import Mathlib

/-!
Verification of the temporal-alignment and deviation-statistics core of
`aim_bias_md5_auto.py`.

A replay frame is a timestamped 2D position: `(time_ms, x, y)`.  Times are
integer milliseconds (the source reconstructs them as a cumulative sum of
integer deltas); coordinates are modelled as rationals.
-/

abbrev Frame := ℤ × ℚ × ℚ

/-- The update of the running best candidate performed on each loop iteration
of `find_closest_frame`: the first frame always becomes the best, a later
frame replaces the best only on a strictly smaller distance `dt`. -/
def fcf_update (f : Frame) (dt : ℤ) : Option (Frame × ℤ) → Frame × ℤ
  | none => (f, dt)
  | some (b, bdt) => if dt < bdt then (f, dt) else (b, bdt)

/-- The scan loop of `find_closest_frame`: walk the timeline keeping the best
frame seen so far together with its distance, and break out early at the first
frame strictly after the target time whose signed distance exceeds the current
best distance. -/
def fcf_loop (target_time : ℤ) : List Frame → Option (Frame × ℤ) → Option (Frame × ℤ)
  | [], best => best
  | f :: rest, best =>
    if f.1 > target_time ∧ f.1 - target_time > (fcf_update f |f.1 - target_time| best).2 then
      some (fcf_update f |f.1 - target_time| best)
    else
      fcf_loop target_time rest (some (fcf_update f |f.1 - target_time| best))

/-- Model of `find_closest_frame` from the source: scan the timeline for the frame
closest in time to `target_time`; return `none` when the timeline is empty or
the best distance exceeds `max_delta`. -/
def find_closest_frame (timeline : List Frame) (target_time : ℤ) (max_delta : ℤ) :
    Option Frame :=
  match fcf_loop target_time timeline none with
  | none => none
  | some (b, bdt) => if bdt > max_delta then none else some b

/-- Time-monotonicity of a timeline (non-decreasing timestamps), the invariant
the source guarantees by building times as cumulative sums of non-negative
deltas. -/
def TimeMono (l : List Frame) : Prop :=
  List.Pairwise (fun p q : Frame => p.1 ≤ q.1) l

instance (l : List Frame) : Decidable (TimeMono l) := by
  unfold TimeMono; infer_instance

/-- Case analysis on `fcf_update`: the updated best is either the new frame
with its distance, or the old accumulator pair. -/
lemma fcf_update_cases (f : Frame) (dt : ℤ) (acc : Option (Frame × ℤ)) :
    fcf_update f dt acc = (f, dt) ∨ ∃ a adt, acc = some (a, adt) ∧ fcf_update f dt acc = (a, adt) := by
  cases acc with
  | none => exact Or.inl rfl
  | some p =>
    obtain ⟨a, adt⟩ := p
    by_cases h : dt < adt
    · exact Or.inl (by simp [fcf_update, h])
    · exact Or.inr ⟨a, adt, rfl, by simp [fcf_update, h]⟩

/-- The distance stored by `fcf_update` never exceeds the new frame's distance. -/
lemma fcf_update_le_dt (f : Frame) (dt : ℤ) (acc : Option (Frame × ℤ)) :
    (fcf_update f dt acc).2 ≤ dt := by
  cases acc with
  | none => simp [fcf_update]
  | some p =>
    obtain ⟨a, adt⟩ := p
    by_cases h : dt < adt <;> simp [fcf_update, h] <;> omega

/-- The distance stored by `fcf_update` never exceeds the old best distance. -/
lemma fcf_update_le_acc (f : Frame) (dt : ℤ) (a : Frame) (adt : ℤ) :
    (fcf_update f dt (some (a, adt))).2 ≤ adt := by
  by_cases h : dt < adt <;> simp [fcf_update, h] <;> omega

/-- With an empty accumulator the loop never breaks on the first frame, so the
first frame simply becomes the initial best candidate. -/
lemma fcf_loop_nil_acc (t : ℤ) (f : Frame) (rest : List Frame) :
    fcf_loop t (f :: rest) none = fcf_loop t rest (some (f, |f.1 - t|)) := by
  have hupd : fcf_update f |f.1 - t| none = (f, |f.1 - t|) := rfl
  show (if f.1 > t ∧ f.1 - t > (fcf_update f |f.1 - t| none).2 then _ else _) = _
  rw [hupd, if_neg]
  rintro ⟨h1, h2⟩
  exact absurd h2 (not_lt.mpr (le_abs_self _))

/-- Started from a non-empty accumulator, the loop always returns a result. -/
lemma fcf_loop_isSome (t : ℤ) :
    ∀ (l : List Frame) (a : Frame) (adt : ℤ),
      ∃ b bdt, fcf_loop t l (some (a, adt)) = some (b, bdt) := by
  intro l
  induction l with
  | nil => intro a adt; exact ⟨a, adt, rfl⟩
  | cons f rest ih =>
    intro a adt
    show (∃ b bdt, (if f.1 > t ∧ f.1 - t > (fcf_update f |f.1 - t| (some (a, adt))).2
        then some (fcf_update f |f.1 - t| (some (a, adt)))
        else fcf_loop t rest (some (fcf_update f |f.1 - t| (some (a, adt))))) = some (b, bdt))
    by_cases hbr : f.1 > t ∧ f.1 - t > (fcf_update f |f.1 - t| (some (a, adt))).2
    · rw [if_pos hbr]
      exact ⟨_, _, rfl⟩
    · rw [if_neg hbr]
      exact ih (fcf_update f |f.1 - t| (some (a, adt))).1 (fcf_update f |f.1 - t| (some (a, adt))).2

/-- Any result produced by the loop is either the initial accumulator or a
frame of the scanned list paired with its true distance to the target. -/
lemma fcf_loop_mem (t : ℤ) :
    ∀ (l : List Frame) (acc : Option (Frame × ℤ)) (b : Frame) (bdt : ℤ),
      fcf_loop t l acc = some (b, bdt) →
      acc = some (b, bdt) ∨ (b ∈ l ∧ bdt = |b.1 - t|) := by
  intro l
  induction l with
  | nil => intro acc b bdt h; exact Or.inl h
  | cons f rest ih =>
    intro acc b bdt h
    rw [show fcf_loop t (f :: rest) acc =
        (if f.1 > t ∧ f.1 - t > (fcf_update f |f.1 - t| acc).2
         then some (fcf_update f |f.1 - t| acc)
         else fcf_loop t rest (some (fcf_update f |f.1 - t| acc))) from rfl] at h
    have hcases := fcf_update_cases f |f.1 - t| acc
    by_cases hbr : f.1 > t ∧ f.1 - t > (fcf_update f |f.1 - t| acc).2
    · rw [if_pos hbr] at h
      have hu : fcf_update f |f.1 - t| acc = (b, bdt) := by
        injection h
      rcases hcases with hnew | ⟨a, adt, hacc, hold⟩
      · rw [hnew] at hu
        obtain ⟨h1, h2⟩ := Prod.mk.injEq .. ▸ hu
        exact Or.inr ⟨h1 ▸ List.mem_cons_self f rest, by rw [← h1, ← h2]⟩
      · rw [hold] at hu
        exact Or.inl (hacc.trans (congrArg some hu))
    · rw [if_neg hbr] at h
      rcases ih (some (fcf_update f |f.1 - t| acc)) b bdt h with hacc' | ⟨hmem, hdist⟩
      · have hu : fcf_update f |f.1 - t| acc = (b, bdt) := by
          injection hacc'
        rcases hcases with hnew | ⟨a, adt, hacc, hold⟩
        · rw [hnew] at hu
          obtain ⟨h1, h2⟩ := Prod.mk.injEq .. ▸ hu
          exact Or.inr ⟨h1 ▸ List.mem_cons_self f rest, by rw [← h1, ← h2]⟩
        · rw [hold] at hu
          exact Or.inl (hacc.trans (congrArg some hu))
      · exact Or.inr ⟨List.mem_cons_of_mem f hmem, hdist⟩

/-- Under a time-monotone list the early exit is safe: the loop's final best
distance is a lower bound both for the initial accumulator distance and for
the distance of every frame of the list. -/
lemma fcf_loop_min (t : ℤ) :
    ∀ (l : List Frame) (a : Frame) (adt : ℤ) (b : Frame) (bdt : ℤ),
      List.Pairwise (fun p q : Frame => p.1 ≤ q.1) l →
      fcf_loop t l (some (a, adt)) = some (b, bdt) →
      bdt ≤ adt ∧ ∀ p ∈ l, bdt ≤ |p.1 - t| := by
  intro l
  induction l with
  | nil =>
    intro a adt b bdt _ h
    have hab : a = b ∧ adt = bdt := by
      constructor <;> injection h with h' <;> [exact congrArg Prod.fst h';
        exact congrArg Prod.snd h']
    exact ⟨hab.2 ▸ le_refl _, by intro p hp; exact absurd hp (List.not_mem_nil p)⟩
  | cons f rest ih =>
    intro a adt b bdt hpw h
    obtain ⟨hhead, htail⟩ := List.pairwise_cons.mp hpw
    set u := fcf_update f |f.1 - t| (some (a, adt)) with hu
    have hule_dt : u.2 ≤ |f.1 - t| := fcf_update_le_dt f |f.1 - t| (some (a, adt))
    have hule_acc : u.2 ≤ adt := fcf_update_le_acc f |f.1 - t| a adt
    rw [show fcf_loop t (f :: rest) (some (a, adt)) =
        (if f.1 > t ∧ f.1 - t > u.2 then some u else fcf_loop t rest (some u)) from rfl] at h
    by_cases hbr : f.1 > t ∧ f.1 - t > u.2
    · rw [if_pos hbr] at h
      have hbu : b = u.1 ∧ bdt = u.2 := by
        constructor <;> injection h with h' <;> [exact (congrArg Prod.fst h').symm;
          exact (congrArg Prod.snd h').symm]
      refine ⟨hbu.2 ▸ hule_acc, ?_⟩
      intro p hp
      rcases List.mem_cons.mp hp with hpf | hpr
      · rw [hbu.2, hpf]; exact hule_dt
      · have h1 : f.1 ≤ p.1 := hhead p hpr
        have h2 : p.1 - t ≤ |p.1 - t| := le_abs_self _
        rw [hbu.2]
        have : u.2 < f.1 - t := hbr.2
        linarith
    · rw [if_neg hbr] at h
      have hrec := ih u.1 u.2 b bdt htail (by rw [← Prod.mk.eta (p := u)] at h; exact h)
      refine ⟨le_trans hrec.1 hule_acc, ?_⟩
      intro p hp
      rcases List.mem_cons.mp hp with hpf | hpr
      · rw [hpf]; exact le_trans hrec.1 hule_dt
      · exact hrec.2 p hpr

/-- The loop returns the first-encountered minimiser: its result is either the
initial accumulator, or a frame of the list that strictly beats the
accumulator and every frame that precedes it in the list. -/
lemma fcf_loop_first (t : ℤ) :
    ∀ (l : List Frame) (a : Frame) (adt : ℤ) (b : Frame) (bdt : ℤ),
      fcf_loop t l (some (a, adt)) = some (b, bdt) →
      (b = a ∧ bdt = adt) ∨
      (bdt = |b.1 - t| ∧ bdt < adt ∧
        ∃ l1 l2, l = l1 ++ b :: l2 ∧ ∀ p ∈ l1, bdt < |p.1 - t|) := by
  intro l
  induction l with
  | nil =>
    intro a adt b bdt h
    refine Or.inl ?_
    constructor <;> injection h with h' <;> [exact (congrArg Prod.fst h').symm;
      exact (congrArg Prod.snd h').symm]
  | cons f rest ih =>
    intro a adt b bdt h
    rw [show fcf_loop t (f :: rest) (some (a, adt)) =
        (if f.1 > t ∧ f.1 - t > (fcf_update f |f.1 - t| (some (a, adt))).2
         then some (fcf_update f |f.1 - t| (some (a, adt)))
         else fcf_loop t rest (some (fcf_update f |f.1 - t| (some (a, adt))))) from rfl] at h
    by_cases hlt : |f.1 - t| < adt
    · have hu : fcf_update f |f.1 - t| (some (a, adt)) = (f, |f.1 - t|) := by
        simp [fcf_update, hlt]
      rw [hu] at h
      by_cases hbr : f.1 > t ∧ f.1 - t > ((f, |f.1 - t|) : Frame × ℤ).2
      · rw [if_pos hbr] at h
        have hbu : b = f ∧ bdt = |f.1 - t| := by
          constructor <;> injection h with h' <;> [exact (congrArg Prod.fst h').symm;
            exact (congrArg Prod.snd h').symm]
        refine Or.inr ⟨by rw [hbu.2, hbu.1], by rw [hbu.2]; exact hlt, [], rest, ?_, ?_⟩
        · rw [hbu.1]; rfl
        · intro p hp; exact absurd hp (List.not_mem_nil p)
      · rw [if_neg hbr] at h
        rcases ih f |f.1 - t| b bdt h with ⟨hbf, hbdt⟩ | ⟨hd, hlt', l1, l2, hsplit, hfar⟩
        · refine Or.inr ⟨by rw [hbdt, hbf], by rw [hbdt]; exact hlt, [], rest, ?_, ?_⟩
          · rw [hbf]; rfl
          · intro p hp; exact absurd hp (List.not_mem_nil p)
        · refine Or.inr ⟨hd, lt_trans hlt' hlt, f :: l1, l2, by rw [hsplit]; rfl, ?_⟩
          intro p hp
          rcases List.mem_cons.mp hp with hpf | hpl
          · rw [hpf]; exact hlt'
          · exact hfar p hpl
    · have hu : fcf_update f |f.1 - t| (some (a, adt)) = (a, adt) := by
        simp [fcf_update, hlt]
      rw [hu] at h
      by_cases hbr : f.1 > t ∧ f.1 - t > ((a, adt) : Frame × ℤ).2
      · rw [if_pos hbr] at h
        refine Or.inl ?_
        constructor <;> injection h with h' <;> [exact (congrArg Prod.fst h').symm;
          exact (congrArg Prod.snd h').symm]
      · rw [if_neg hbr] at h
        rcases ih a adt b bdt h with hacc | ⟨hd, hlt', l1, l2, hsplit, hfar⟩
        · exact Or.inl hacc
        · refine Or.inr ⟨hd, hlt', f :: l1, l2, by rw [hsplit]; rfl, ?_⟩
          intro p hp
          rcases List.mem_cons.mp hp with hpf | hpl
          · rw [hpf]
            have : adt ≤ |f.1 - t| := not_lt.mp hlt
            omega
          · exact hfar p hpl

/-- A returned frame belongs to the timeline and its distance to the target is
within `max_delta`. -/
lemma fcf_some_spec (l : List Frame) (t md : ℤ) (b : Frame)
    (h : find_closest_frame l t md = some b) :
    b ∈ l ∧ |b.1 - t| ≤ md := by
  cases l with
  | nil => exact absurd h (by simp [find_closest_frame, fcf_loop])
  | cons f rest =>
    unfold find_closest_frame at h
    rw [fcf_loop_nil_acc] at h
    obtain ⟨b0, bdt0, h0⟩ := fcf_loop_isSome t rest f |f.1 - t|
    rw [h0] at h
    dsimp only at h
    by_cases hgt : bdt0 > md
    · rw [if_pos hgt] at h; exact absurd h (by simp)
    · rw [if_neg hgt] at h
      have hb : b0 = b := by injection h
      subst hb
      rcases fcf_loop_mem t rest (some (f, |f.1 - t|)) b0 bdt0 h0 with hacc | ⟨hmem, hdist⟩
      · have hf : f = b0 ∧ |f.1 - t| = bdt0 := by
          constructor <;> injection hacc with h' <;> [exact congrArg Prod.fst h';
            exact congrArg Prod.snd h']
        exact ⟨hf.1 ▸ List.mem_cons_self f rest, by rw [← hf.1, hf.2]; omega⟩
      · exact ⟨List.mem_cons_of_mem f hmem, by rw [← hdist]; omega⟩

/-- On a time-monotone timeline the returned frame minimises the time distance
over the whole timeline: the early exit never skips a closer frame. -/
lemma fcf_min_spec (l : List Frame) (t md : ℤ) (b : Frame)
    (hmono : TimeMono l) (h : find_closest_frame l t md = some b) :
    ∀ p ∈ l, |b.1 - t| ≤ |p.1 - t| := by
  cases l with
  | nil => exact absurd h (by simp [find_closest_frame, fcf_loop])
  | cons f rest =>
    obtain ⟨hhead, htail⟩ := List.pairwise_cons.mp hmono
    unfold find_closest_frame at h
    rw [fcf_loop_nil_acc] at h
    obtain ⟨b0, bdt0, h0⟩ := fcf_loop_isSome t rest f |f.1 - t|
    rw [h0] at h
    dsimp only at h
    by_cases hgt : bdt0 > md
    · rw [if_pos hgt] at h; exact absurd h (by simp)
    · rw [if_neg hgt] at h
      have hb : b0 = b := by injection h
      subst hb
      have hbdt : bdt0 = |b0.1 - t| := by
        rcases fcf_loop_mem t rest (some (f, |f.1 - t|)) b0 bdt0 h0 with hacc | ⟨_, hdist⟩
        · have hf : f = b0 ∧ |f.1 - t| = bdt0 := by
            constructor <;> injection hacc with h' <;> [exact congrArg Prod.fst h';
              exact congrArg Prod.snd h']
          rw [← hf.1, hf.2]
        · exact hdist
      obtain ⟨hle_acc, hall⟩ := fcf_loop_min t rest f |f.1 - t| b0 bdt0 htail h0
      intro p hp
      rcases List.mem_cons.mp hp with hpf | hpr
      · rw [← hbdt, hpf]; exact hle_acc
      · rw [← hbdt]; exact hall p hpr

/-- On a time-monotone timeline, a frame within `max_delta` of the target
guarantees a match. -/
lemma fcf_complete (l : List Frame) (t md : ℤ) (p : Frame)
    (hmono : TimeMono l) (hp : p ∈ l) (hd : |p.1 - t| ≤ md) :
    ∃ b, find_closest_frame l t md = some b := by
  cases l with
  | nil => exact absurd hp (List.not_mem_nil p)
  | cons f rest =>
    obtain ⟨hhead, htail⟩ := List.pairwise_cons.mp hmono
    obtain ⟨b0, bdt0, h0⟩ := fcf_loop_isSome t rest f |f.1 - t|
    obtain ⟨hle_acc, hall⟩ := fcf_loop_min t rest f |f.1 - t| b0 bdt0 htail h0
    have hbd : bdt0 ≤ md := by
      rcases List.mem_cons.mp hp with hpf | hpr
      · calc bdt0 ≤ |f.1 - t| := hle_acc
          _ = |p.1 - t| := by rw [hpf]
          _ ≤ md := hd
      · exact le_trans (hall p hpr) hd
    refine ⟨b0, ?_⟩
    unfold find_closest_frame
    rw [fcf_loop_nil_acc, h0]
    dsimp only
    rw [if_neg (not_lt.mpr hbd)]

/-- The returned frame is the first-encountered minimiser: every frame that
precedes it in the timeline is strictly farther from the target. -/
lemma fcf_first_spec (l : List Frame) (t md : ℤ) (b : Frame)
    (h : find_closest_frame l t md = some b) :
    ∃ l1 l2, l = l1 ++ b :: l2 ∧ ∀ p ∈ l1, |b.1 - t| < |p.1 - t| := by
  cases l with
  | nil => exact absurd h (by simp [find_closest_frame, fcf_loop])
  | cons f rest =>
    unfold find_closest_frame at h
    rw [fcf_loop_nil_acc] at h
    obtain ⟨b0, bdt0, h0⟩ := fcf_loop_isSome t rest f |f.1 - t|
    rw [h0] at h
    dsimp only at h
    by_cases hgt : bdt0 > md
    · rw [if_pos hgt] at h; exact absurd h (by simp)
    · rw [if_neg hgt] at h
      have hb : b0 = b := by injection h
      subst hb
      rcases fcf_loop_first t rest f |f.1 - t| b0 bdt0 h0 with ⟨hbf, hbdt⟩ | hfirst
      · refine ⟨[], rest, by rw [hbf]; rfl, ?_⟩
        intro p hp; exact absurd hp (List.not_mem_nil p)
      · obtain ⟨hd, hlt, l1, l2, hsplit, hfar⟩ := hfirst
        refine ⟨f :: l1, l2, by rw [hsplit]; rfl, ?_⟩
        intro p hp
        rcases List.mem_cons.mp hp with hpf | hpl
        · rw [← hd, hpf]; exact hlt
        · rw [← hd]; exact hfar p hpl

/-- A singleton timeline matches exactly when the single frame is within
`max_delta` of the target. -/
lemma fcf_single (T : ℤ) (c : ℚ × ℚ) (t md : ℤ) :
    find_closest_frame [(T, c)] t md = if |T - t| > md then none else some (T, c) := by
  unfold find_closest_frame
  rw [fcf_loop_nil_acc]
  rfl

/-- The empty timeline never matches. -/
lemma fcf_nil (t md : ℤ) : find_closest_frame [] t md = none := rfl

/-- C1: on a time-monotone timeline, `find_closest_frame` returns a frame of
the timeline that minimises the time distance to the target (the early-exit
break never skips a closer frame), and whenever some frame is within
`max_delta` of the target a frame is returned. -/
theorem find_closest_frame_nearest (l : List Frame) (t md : ℤ) (hmono : TimeMono l) :
    (∀ b, find_closest_frame l t md = some b →
        b ∈ l ∧ |b.1 - t| ≤ md ∧ ∀ p ∈ l, |b.1 - t| ≤ |p.1 - t|) ∧
    (∀ p ∈ l, |p.1 - t| ≤ md → ∃ b, find_closest_frame l t md = some b) := by
  constructor
  · intro b hb
    obtain ⟨hmem, hle⟩ := fcf_some_spec l t md b hb
    exact ⟨hmem, hle, fcf_min_spec l t md b hmono hb⟩
  · intro p hp hd
    exact fcf_complete l t md p hmono hp hd

theorem find_closest_frame_nearest_witness :
    TimeMono [((0 : ℤ), (0 : ℚ), (0 : ℚ)), ((5 : ℤ), (1 : ℚ), (1 : ℚ))] ∧
    ((∀ b, find_closest_frame [((0 : ℤ), (0 : ℚ), (0 : ℚ)), ((5 : ℤ), (1 : ℚ), (1 : ℚ))] 4 80
          = some b →
        b ∈ [((0 : ℤ), (0 : ℚ), (0 : ℚ)), ((5 : ℤ), (1 : ℚ), (1 : ℚ))] ∧ |b.1 - 4| ≤ 80 ∧
        ∀ p ∈ [((0 : ℤ), (0 : ℚ), (0 : ℚ)), ((5 : ℤ), (1 : ℚ), (1 : ℚ))],
          |b.1 - 4| ≤ |p.1 - 4|) ∧
     (∀ p ∈ [((0 : ℤ), (0 : ℚ), (0 : ℚ)), ((5 : ℤ), (1 : ℚ), (1 : ℚ))], |p.1 - 4| ≤ 80 →
        ∃ b, find_closest_frame [((0 : ℤ), (0 : ℚ), (0 : ℚ)), ((5 : ℤ), (1 : ℚ), (1 : ℚ))] 4 80
          = some b)) :=
  ⟨by decide, find_closest_frame_nearest _ 4 80 (by decide)⟩

/-- C3: equal distances on both sides resolve to the earlier frame.  If a
time-monotone timeline holds a frame at `T - k` and one at `T + k` (both
within `max_delta`, `k` being the minimal distance, and `T - k` carrying a
unique frame), the scan returns the frame at `T - k`. -/
theorem find_closest_frame_tie_earlier (l : List Frame) (T k md : ℤ) (p q : ℚ × ℚ)
    (hmono : TimeMono l) (hk : 0 < k) (hkmd : k ≤ md)
    (hearly : (T - k, p) ∈ l) (hlate : (T + k, q) ∈ l)
    (hmin : ∀ r ∈ l, k ≤ |r.1 - T|)
    (huniq : ∀ r ∈ l, r.1 = T - k → r = (T - k, p)) :
    find_closest_frame l T md = some (T - k, p) := by
  have hdist : |((T - k : ℤ), p).1 - T| = k := by
    have h1 : ((T - k : ℤ), p).1 - T = -k := by simp
    rw [h1, abs_neg, abs_of_pos hk]
  obtain ⟨b, hb⟩ := fcf_complete l T md (T - k, p) hmono hearly (by rw [hdist]; exact hkmd)
  obtain ⟨hmem, _⟩ := fcf_some_spec l T md b hb
  have hminb := fcf_min_spec l T md b hmono hb
  have hbk : |b.1 - T| = k := by
    refine le_antisymm ?_ (hmin b hmem)
    have := hminb _ hearly
    rw [hdist] at this
    exact this
  rcases (abs_eq (le_of_lt hk)).mp hbk with hpos | hneg
  · exfalso
    obtain ⟨l1, l2, hsplit, hfar⟩ := fcf_first_spec l T md b hb
    have hearly' : (T - k, p) ∈ l1 ∨ (T - k, p) = b ∨ (T - k, p) ∈ l2 := by
      rw [hsplit] at hearly
      rcases List.mem_append.mp hearly with h1 | h2
      · exact Or.inl h1
      · rcases List.mem_cons.mp h2 with h3 | h4
        · exact Or.inr (Or.inl h3)
        · exact Or.inr (Or.inr h4)
    rcases hearly' with h1 | h2 | h3
    · have := hfar _ h1
      rw [hbk, hdist] at this
      exact lt_irrefl k this
    · have hfst : (T - k : ℤ) = b.1 := congrArg Prod.fst h2
      omega
    · unfold TimeMono at hmono
      rw [hsplit] at hmono
      obtain ⟨_, hpw2, _⟩ := List.pairwise_append.mp hmono
      have hble := (List.pairwise_cons.mp hpw2).1 _ h3
      simp only at hble
      omega
  · have hb1 : b.1 = T - k := by omega
    rw [huniq b hmem hb1] at hb
    exact hb

theorem find_closest_frame_tie_earlier_witness :
    TimeMono [((8 : ℤ), (1 : ℚ), (1 : ℚ)), ((12 : ℤ), (2 : ℚ), (2 : ℚ))] ∧
    (0 : ℤ) < 2 ∧ (2 : ℤ) ≤ 80 ∧
    ((10 : ℤ) - 2, ((1 : ℚ), (1 : ℚ))) ∈
      [((8 : ℤ), (1 : ℚ), (1 : ℚ)), ((12 : ℤ), (2 : ℚ), (2 : ℚ))] ∧
    ((10 : ℤ) + 2, ((2 : ℚ), (2 : ℚ))) ∈
      [((8 : ℤ), (1 : ℚ), (1 : ℚ)), ((12 : ℤ), (2 : ℚ), (2 : ℚ))] ∧
    (∀ r ∈ [((8 : ℤ), (1 : ℚ), (1 : ℚ)), ((12 : ℤ), (2 : ℚ), (2 : ℚ))], (2 : ℤ) ≤ |r.1 - 10|) ∧
    (∀ r ∈ [((8 : ℤ), (1 : ℚ), (1 : ℚ)), ((12 : ℤ), (2 : ℚ), (2 : ℚ))], r.1 = 10 - 2 →
      r = ((10 : ℤ) - 2, ((1 : ℚ), (1 : ℚ)))) ∧
    find_closest_frame [((8 : ℤ), (1 : ℚ), (1 : ℚ)), ((12 : ℤ), (2 : ℚ), (2 : ℚ))] 10 80
      = some ((10 : ℤ) - 2, ((1 : ℚ), (1 : ℚ))) :=
  ⟨by decide, by decide, by decide, by decide, by decide, by decide, by decide,
    find_closest_frame_tie_earlier _ 10 2 80 (1, 1) (2, 2) (by decide) (by decide) (by decide)
      (by decide) (by decide) (by decide) (by decide)⟩

/-- C4: on a time-monotone timeline with `max_delta ≥ 0`, the scan returns
`none` exactly when the timeline is empty or every frame is strictly farther
than `max_delta`; a single frame at `T` matches a target at `T + max_delta`
but not at `T + max_delta + 1`, and `max_delta = 0` forces an exact time
match. -/
theorem find_closest_frame_none_char (l : List Frame) (t md : ℤ)
    (hmono : TimeMono l) (hmd : 0 ≤ md) :
    (find_closest_frame l t md = none ↔ l = [] ∨ ∀ p ∈ l, md < |p.1 - t|) ∧
    (∀ (T : ℤ) (c : ℚ × ℚ), find_closest_frame [(T, c)] (T + md) md = some (T, c)) ∧
    (∀ (T : ℤ) (c : ℚ × ℚ), find_closest_frame [(T, c)] (T + md + 1) md = none) ∧
    (∀ b, find_closest_frame l t 0 = some b → b.1 = t) := by
  refine ⟨⟨?_, ?_⟩, ?_, ?_, ?_⟩
  · intro hnone
    by_cases hl : l = []
    · exact Or.inl hl
    · right
      intro p hp
      by_contra hcon
      push_neg at hcon
      obtain ⟨b, hb⟩ := fcf_complete l t md p hmono hp hcon
      rw [hb] at hnone
      exact absurd hnone (by simp)
  · intro hor
    rcases hor with hl | hall
    · rw [hl]; exact fcf_nil t md
    · cases hres : find_closest_frame l t md with
      | none => rfl
      | some b =>
        obtain ⟨hmem, hle⟩ := fcf_some_spec l t md b hres
        exact absurd hle (not_le.mpr (hall b hmem))
  · intro T c
    rw [fcf_single, if_neg]
    have h1 : T - (T + md) = -md := by ring
    rw [h1, abs_neg, abs_of_nonneg hmd]
    exact lt_irrefl md
  · intro T c
    rw [fcf_single, if_pos]
    have h1 : T - (T + md + 1) = -(md + 1) := by ring
    rw [h1, abs_neg, abs_of_nonneg (by omega : (0 : ℤ) ≤ md + 1)]
    omega
  · intro b hb
    obtain ⟨hmem, hle⟩ := fcf_some_spec l t 0 b hb
    have h0 : |b.1 - t| = 0 := le_antisymm hle (abs_nonneg _)
    have := abs_eq_zero.mp h0
    omega

theorem find_closest_frame_none_char_witness :
    TimeMono [((0 : ℤ), (0 : ℚ), (0 : ℚ))] ∧ (0 : ℤ) ≤ 80 ∧
    ((find_closest_frame [((0 : ℤ), (0 : ℚ), (0 : ℚ))] 3 80 = none ↔
        [((0 : ℤ), (0 : ℚ), (0 : ℚ))] = [] ∨
        ∀ p ∈ [((0 : ℤ), (0 : ℚ), (0 : ℚ))], (80 : ℤ) < |p.1 - 3|) ∧
     (∀ (T : ℤ) (c : ℚ × ℚ), find_closest_frame [(T, c)] (T + 80) 80 = some (T, c)) ∧
     (∀ (T : ℤ) (c : ℚ × ℚ), find_closest_frame [(T, c)] (T + 80 + 1) 80 = none) ∧
     (∀ b, find_closest_frame [((0 : ℤ), (0 : ℚ), (0 : ℚ))] 3 0 = some b → b.1 = 3)) :=
  ⟨by decide, by decide, find_closest_frame_none_char _ 3 80 (by decide) (by decide)⟩

/-- The outlier test `math.hypot dx dy ≤ include_radius` of the source,
expressed over the rationals without a square root: for real numbers,
`sqrt (dx² + dy²) ≤ r` holds exactly when `0 ≤ r` and `dx² + dy² ≤ r²`
(see `keeps_iff_sqrt`). -/
def keeps (dx dy radius : ℚ) : Bool :=
  decide (0 ≤ radius ∧ dx * dx + dy * dy ≤ radius * radius)

/-- Bridge lemma: `keeps` coincides with the source's real-valued test
`sqrt (dx² + dy²) ≤ radius`. -/
lemma keeps_iff_sqrt (dx dy radius : ℚ) :
    keeps dx dy radius = true ↔
      Real.sqrt ((dx : ℝ) ^ 2 + (dy : ℝ) ^ 2) ≤ (radius : ℝ) := by
  rw [keeps, decide_eq_true_eq, Real.sqrt_le_iff]
  constructor
  · rintro ⟨hr, hle⟩
    refine ⟨by exact_mod_cast hr, ?_⟩
    have hle' : ((dx * dx + dy * dy : ℚ) : ℝ) ≤ ((radius * radius : ℚ) : ℝ) := by
      exact_mod_cast hle
    push_cast at hle'
    calc (dx : ℝ) ^ 2 + (dy : ℝ) ^ 2
        = (dx : ℝ) * (dx : ℝ) + (dy : ℝ) * (dy : ℝ) := by ring
      _ ≤ (radius : ℝ) * (radius : ℝ) := hle'
      _ = (radius : ℝ) ^ 2 := by ring
  · rintro ⟨hr, hle⟩
    refine ⟨by exact_mod_cast hr, ?_⟩
    have hle' : ((dx : ℝ)) * dx + (dy : ℝ) * dy ≤ (radius : ℝ) * radius := by
      calc ((dx : ℝ)) * dx + (dy : ℝ) * dy = (dx : ℝ) ^ 2 + (dy : ℝ) ^ 2 := by ring
        _ ≤ (radius : ℝ) ^ 2 := hle
        _ = (radius : ℝ) * radius := by ring
    exact_mod_cast hle'

/-- The per-hitobject loop of `analyze_replay_with_md5`: for each hitobject
`(t_obj, x_obj, y_obj)` find the closest replay frame within 80 ms; when one
exists compute `dx = x_r - x_obj`, `dy = y_r - y_obj` and keep `(dx, dy)` only
when the deviation distance is within `include_radius`. -/
def replay_errors (hitobjects : List (ℤ × ℚ × ℚ)) (timeline : List Frame)
    (include_radius : ℚ) : List (ℚ × ℚ) :=
  match hitobjects with
  | [] => []
  | (t_obj, x_obj, y_obj) :: rest =>
    match find_closest_frame timeline t_obj 80 with
    | none => replay_errors rest timeline include_radius
    | some (_, x_r, y_r) =>
      if keeps (x_r - x_obj) (y_r - y_obj) include_radius then
        (x_r - x_obj, y_r - y_obj) :: replay_errors rest timeline include_radius
      else
        replay_errors rest timeline include_radius

/-- C5: a matched (hitobject, frame) pair contributes the deviation vector
`(x_r - x_obj, y_r - y_obj)` exactly when `sqrt (dx² + dy²) ≤ include_radius`
(boundary equality accepted); an unmatched hitobject contributes nothing. -/
theorem replay_errors_radius_filter (h : ℤ × ℚ × ℚ) (rest : List (ℤ × ℚ × ℚ))
    (timeline : List Frame) (r : ℚ) :
    (find_closest_frame timeline h.1 80 = none →
      replay_errors (h :: rest) timeline r = replay_errors rest timeline r) ∧
    (∀ tf xr yr, find_closest_frame timeline h.1 80 = some (tf, xr, yr) →
      (Real.sqrt (((xr - h.2.1 : ℚ) : ℝ) ^ 2 + ((yr - h.2.2 : ℚ) : ℝ) ^ 2) ≤ (r : ℝ) →
        replay_errors (h :: rest) timeline r
          = (xr - h.2.1, yr - h.2.2) :: replay_errors rest timeline r) ∧
      (¬ Real.sqrt (((xr - h.2.1 : ℚ) : ℝ) ^ 2 + ((yr - h.2.2 : ℚ) : ℝ) ^ 2) ≤ (r : ℝ) →
        replay_errors (h :: rest) timeline r = replay_errors rest timeline r)) := by
  obtain ⟨t_obj, x_obj, y_obj⟩ := h
  constructor
  · intro hnone
    simp only at hnone
    rw [show replay_errors ((t_obj, x_obj, y_obj) :: rest) timeline r =
        (match find_closest_frame timeline t_obj 80 with
         | none => replay_errors rest timeline r
         | some (_, x_r, y_r) =>
           if keeps (x_r - x_obj) (y_r - y_obj) r then
             (x_r - x_obj, y_r - y_obj) :: replay_errors rest timeline r
           else
             replay_errors rest timeline r) from rfl, hnone]
  · intro tf xr yr hsome
    simp only at hsome
    have hunfold : replay_errors ((t_obj, x_obj, y_obj) :: rest) timeline r =
        (if keeps (xr - x_obj) (yr - y_obj) r then
          (xr - x_obj, yr - y_obj) :: replay_errors rest timeline r
         else replay_errors rest timeline r) := by
      rw [show replay_errors ((t_obj, x_obj, y_obj) :: rest) timeline r =
          (match find_closest_frame timeline t_obj 80 with
           | none => replay_errors rest timeline r
           | some (_, x_r, y_r) =>
             if keeps (x_r - x_obj) (y_r - y_obj) r then
               (x_r - x_obj, y_r - y_obj) :: replay_errors rest timeline r
             else
               replay_errors rest timeline r) from rfl, hsome]
    constructor
    · intro hsqrt
      rw [hunfold, if_pos ((keeps_iff_sqrt _ _ _).mpr hsqrt)]
    · intro hsqrt
      rw [hunfold, if_neg ?_]
      intro hk
      exact hsqrt ((keeps_iff_sqrt _ _ _).mp hk)

theorem replay_errors_radius_filter_witness :
    find_closest_frame [((0 : ℤ), (3 : ℚ), (4 : ℚ))] ((0 : ℤ), (0 : ℚ), (0 : ℚ)).1 80
      = some (0, 3, 4) ∧
    Real.sqrt ((((3 : ℚ) - ((0 : ℤ), (0 : ℚ), (0 : ℚ)).2.1 : ℚ) : ℝ) ^ 2 +
        (((4 : ℚ) - ((0 : ℤ), (0 : ℚ), (0 : ℚ)).2.2 : ℚ) : ℝ) ^ 2) ≤ ((5 : ℚ) : ℝ) ∧
    replay_errors [((0 : ℤ), (0 : ℚ), (0 : ℚ))] [((0 : ℤ), (3 : ℚ), (4 : ℚ))] 5
      = ((3 : ℚ) - ((0 : ℤ), (0 : ℚ), (0 : ℚ)).2.1, (4 : ℚ) - ((0 : ℤ), (0 : ℚ), (0 : ℚ)).2.2) ::
        replay_errors [] [((0 : ℤ), (3 : ℚ), (4 : ℚ))] 5 := by
  have hs : Real.sqrt ((((3 : ℚ) - ((0 : ℤ), (0 : ℚ), (0 : ℚ)).2.1 : ℚ) : ℝ) ^ 2 +
      (((4 : ℚ) - ((0 : ℤ), (0 : ℚ), (0 : ℚ)).2.2 : ℚ) : ℝ) ^ 2) ≤ ((5 : ℚ) : ℝ) :=
    (keeps_iff_sqrt _ _ _).mp (by with_unfolding_all decide)
  exact ⟨by decide, hs,
    ((replay_errors_radius_filter ((0 : ℤ), (0 : ℚ), (0 : ℚ)) [] [((0 : ℤ), (3 : ℚ), (4 : ℚ))]
        5).2 0 3 4 (by decide)).1 hs⟩

/-- C8 counterexample (to "malformed parameters fail fast"): a negative
inclusion radius is absorbed silently — the hitobject at time 0 is matched by
the frame at time 0 with zero deviation, yet the result is the empty list and
no error condition of any kind is produced. -/
theorem negative_radius_counterexample :
    replay_errors [((0 : ℤ), (0 : ℚ), (0 : ℚ))] [((0 : ℤ), (0 : ℚ), (0 : ℚ))] (-1) = [] := by
  decide

/-- C8 amended: the core functions perform no parameter validation; with a
negative inclusion radius every deviation is silently rejected and
`replay_errors` returns the empty list for every input. -/
theorem negative_radius_silent (hitobjects : List (ℤ × ℚ × ℚ)) (timeline : List Frame)
    (r : ℚ) (hr : r < 0) : replay_errors hitobjects timeline r = [] := by
  induction hitobjects with
  | nil => rfl
  | cons h rest ih =>
    obtain ⟨t_obj, x_obj, y_obj⟩ := h
    rw [show replay_errors ((t_obj, x_obj, y_obj) :: rest) timeline r =
        (match find_closest_frame timeline t_obj 80 with
         | none => replay_errors rest timeline r
         | some (_, x_r, y_r) =>
           if keeps (x_r - x_obj) (y_r - y_obj) r then
             (x_r - x_obj, y_r - y_obj) :: replay_errors rest timeline r
           else
             replay_errors rest timeline r) from rfl]
    cases hres : find_closest_frame timeline t_obj 80 with
    | none => exact ih
    | some b =>
      obtain ⟨tf, xr, yr⟩ := b
      have hk : keeps (xr - x_obj) (yr - y_obj) r = false := by
        rw [keeps, decide_eq_false_iff_not]
        rintro ⟨hr', _⟩
        exact absurd hr (not_lt.mpr hr')
      dsimp only
      rw [hk]
      simp only [Bool.false_eq_true, if_false]
      exact ih

theorem negative_radius_silent_witness :
    ((-1 : ℚ) < 0) ∧
    replay_errors [((0 : ℤ), (0 : ℚ), (0 : ℚ))] [((0 : ℤ), (1 : ℚ), (1 : ℚ))] (-1) = [] :=
  ⟨by decide, negative_radius_silent _ _ _ (by decide)⟩

/-- The quadrant buckets of `summarize_errors`. -/
inductive Quadrant where
  | topLeft
  | topRight
  | bottomLeft
  | bottomRight
deriving DecidableEq

/-- The `if/elif` quadrant classification of `summarize_errors`: `dx < 0` is
left, `dy < 0` is top, and `dx = 0` / `dy = 0` fall on the right / bottom
side. -/
def quadrant_of (dx dy : ℚ) : Quadrant :=
  if dx < 0 ∧ dy < 0 then .topLeft
  else if 0 ≤ dx ∧ dy < 0 then .topRight
  else if dx < 0 ∧ 0 ≤ dy then .bottomLeft
  else .bottomRight

/-- Model of `statistics.mean` over rationals: sum divided by length. -/
def mean (l : List ℚ) : ℚ := l.sum / (l.length : ℚ)

/-- Number of error vectors falling in a given quadrant bucket. -/
def quad_count (errors : List (ℚ × ℚ)) (q : Quadrant) : ℕ :=
  errors.countP (fun e => decide (quadrant_of e.1 e.2 = q))

/-- The contents of the area-adjustment block printed by `summarize_errors`
when some axis bias reaches the threshold: observed direction labels and
magnitudes, and the suggested corrective shift. -/
structure AreaAdjust where
  dir_x : String
  dir_y : String
  abs_dx_mm : ℚ
  abs_dy_mm : ℚ
  corr_dx_mm : ℚ
  corr_dy_mm : ℚ
  corr_dir_x : String
  corr_dir_y : String
deriving DecidableEq

/-- The area-adjustment outcome: either the "no meaningful adjustment"
message or a concrete adjustment block. -/
inductive AdjustOutcome where
  | noAdjust
  | adjust (a : AreaAdjust)
deriving DecidableEq

/-- The adjustment decision of `summarize_errors`: gated by the joint
threshold test on both physical-unit means, with direction labels taken from
the sign tests `mean_dx > 0` / `mean_dy > 0` (and `corr > 0` for the
corrective direction). -/
def suggestion_of (mean_dx mean_dy mean_dx_mm mean_dy_mm thr : ℚ) : AdjustOutcome :=
  if |mean_dx_mm| < thr ∧ |mean_dy_mm| < thr then .noAdjust
  else .adjust
    { dir_x := if mean_dx > 0 then "right" else "left"
      dir_y := if mean_dy > 0 then "down" else "up"
      abs_dx_mm := |mean_dx_mm|
      abs_dy_mm := |mean_dy_mm|
      corr_dx_mm := -mean_dx_mm
      corr_dy_mm := -mean_dy_mm
      corr_dir_x := if -mean_dx_mm > 0 then "right" else "left"
      corr_dir_y := if -mean_dy_mm > 0 then "down" else "up" }

/-- The report printed by `summarize_errors`: totals, mean biases in osu!
pixels and in tablet millimetres, quadrant counts and percentages, and the
adjustment outcome. -/
structure BiasReport where
  total : ℕ
  mean_dx : ℚ
  mean_dy : ℚ
  mean_dx_mm : ℚ
  mean_dy_mm : ℚ
  quad_tl : ℕ
  quad_tr : ℕ
  quad_bl : ℕ
  quad_br : ℕ
  pct_tl : ℚ
  pct_tr : ℚ
  pct_bl : ℚ
  pct_br : ℚ
  suggestion : AdjustOutcome
deriving DecidableEq

/-- Model of `summarize_errors` from the source: `none` models the early
"no usable errors collected" return; otherwise all statistics of the printed
report.  The physical-unit conversion uses the fixed osu! playfield constants
512 × 384. -/
def summarize_errors (errors : List (ℚ × ℚ)) (area_w_mm area_h_mm adjust_threshold_mm : ℚ) :
    Option BiasReport :=
  if errors = [] then none
  else some
    { total := errors.length
      mean_dx := mean (errors.map Prod.fst)
      mean_dy := mean (errors.map Prod.snd)
      mean_dx_mm := mean (errors.map Prod.fst) / 512 * area_w_mm
      mean_dy_mm := mean (errors.map Prod.snd) / 384 * area_h_mm
      quad_tl := quad_count errors .topLeft
      quad_tr := quad_count errors .topRight
      quad_bl := quad_count errors .bottomLeft
      quad_br := quad_count errors .bottomRight
      pct_tl := (quad_count errors .topLeft : ℚ) / (errors.length : ℚ) * 100
      pct_tr := (quad_count errors .topRight : ℚ) / (errors.length : ℚ) * 100
      pct_bl := (quad_count errors .bottomLeft : ℚ) / (errors.length : ℚ) * 100
      pct_br := (quad_count errors .bottomRight : ℚ) / (errors.length : ℚ) * 100
      suggestion := suggestion_of (mean (errors.map Prod.fst)) (mean (errors.map Prod.snd))
        (mean (errors.map Prod.fst) / 512 * area_w_mm)
        (mean (errors.map Prod.snd) / 384 * area_h_mm) adjust_threshold_mm }

/-- The two left buckets together count exactly the vectors with `dx < 0`:
`dx = 0` is always bucketed on the right side. -/
lemma quad_left_split (errors : List (ℚ × ℚ)) :
    quad_count errors .topLeft + quad_count errors .bottomLeft
      = errors.countP (fun e => decide (e.1 < 0)) := by
  induction errors with
  | nil => rfl
  | cons e rest ih =>
    unfold quad_count at ih ⊢
    rw [List.countP_cons, List.countP_cons, List.countP_cons]
    have hpt : (decide (quadrant_of e.1 e.2 = Quadrant.topLeft)).toNat
        + (decide (quadrant_of e.1 e.2 = Quadrant.bottomLeft)).toNat
        = (decide (e.1 < 0)).toNat := by
      rcases lt_or_le e.1 0 with h1 | h1
      · rcases lt_or_le e.2 0 with h2 | h2
        · simp [quadrant_of, h1, h2]
        · simp [quadrant_of, h1, h2, not_lt.mpr h2]
      · rcases lt_or_le e.2 0 with h2 | h2
        · simp [quadrant_of, h1, h2, not_lt.mpr h1]
        · simp [quadrant_of, h1, h2, not_lt.mpr h1, not_lt.mpr h2]
    cases hb1 : decide (quadrant_of e.1 e.2 = Quadrant.topLeft) <;>
      cases hb2 : decide (quadrant_of e.1 e.2 = Quadrant.bottomLeft) <;>
        cases hb3 : decide (e.1 < 0) <;>
          simp [hb1, hb2, hb3] at hpt ⊢ <;> omega

/-- The two top buckets together count exactly the vectors with `dy < 0`:
`dy = 0` is always bucketed on the bottom side. -/
lemma quad_top_split (errors : List (ℚ × ℚ)) :
    quad_count errors .topLeft + quad_count errors .topRight
      = errors.countP (fun e => decide (e.2 < 0)) := by
  induction errors with
  | nil => rfl
  | cons e rest ih =>
    unfold quad_count at ih ⊢
    rw [List.countP_cons, List.countP_cons, List.countP_cons]
    have hpt : (decide (quadrant_of e.1 e.2 = Quadrant.topLeft)).toNat
        + (decide (quadrant_of e.1 e.2 = Quadrant.topRight)).toNat
        = (decide (e.2 < 0)).toNat := by
      rcases lt_or_le e.1 0 with h1 | h1
      · rcases lt_or_le e.2 0 with h2 | h2
        · simp [quadrant_of, h1, h2]
        · simp [quadrant_of, h1, h2, not_lt.mpr h2]
      · rcases lt_or_le e.2 0 with h2 | h2
        · simp [quadrant_of, h1, h2, not_lt.mpr h1]
        · simp [quadrant_of, h1, h2, not_lt.mpr h1, not_lt.mpr h2]
    cases hb1 : decide (quadrant_of e.1 e.2 = Quadrant.topLeft) <;>
      cases hb2 : decide (quadrant_of e.1 e.2 = Quadrant.topRight) <;>
        cases hb3 : decide (e.2 < 0) <;>
          simp [hb1, hb2, hb3] at hpt ⊢ <;> omega

/-- C7: the empty accepted-deviation set (and only it) produces the bare
"no usable errors" outcome; no statistic is computed there, so no division by
zero is ever reached. -/
theorem summarize_errors_empty_none (errors : List (ℚ × ℚ)) (w h thr : ℚ) :
    summarize_errors errors w h thr = none ↔ errors = [] := by
  unfold summarize_errors
  by_cases he : errors = []
  · simp [he]
  · simp [he]

/-- C2 counterexample: on the four axis-aligned vectors the quadrant shares
are not 25% each — `(10, 0)` and `(0, 10)` both land in the bottom-right
bucket because `dx = 0` and `dy = 0` are grouped with the non-negative
side. -/
theorem quadrant_share_counterexample :
    (summarize_errors [((10 : ℚ), (0 : ℚ)), ((-10 : ℚ), (0 : ℚ)), ((0 : ℚ), (10 : ℚ)),
        ((0 : ℚ), (-10 : ℚ))] 512 384 (1 / 4)).map
      (fun r => (r.pct_tl, r.pct_tr, r.pct_bl, r.pct_br)) ≠ some (25, 25, 25, 25) := by
  with_unfolding_all decide

/-- C2 amended: on the four axis-aligned vectors the means are zero, but the
quadrant distribution is 0% top-left, 25% top-right, 25% bottom-left and 50%
bottom-right (the `dx = 0` / `dy = 0` vectors fall on the right / bottom
side). -/
theorem quadrant_share_axis_points :
    summarize_errors [((10 : ℚ), (0 : ℚ)), ((-10 : ℚ), (0 : ℚ)), ((0 : ℚ), (10 : ℚ)),
        ((0 : ℚ), (-10 : ℚ))] 512 384 (1 / 4)
      = some { total := 4, mean_dx := 0, mean_dy := 0, mean_dx_mm := 0, mean_dy_mm := 0,
               quad_tl := 0, quad_tr := 1, quad_bl := 1, quad_br := 2,
               pct_tl := 0, pct_tr := 25, pct_bl := 25, pct_br := 50,
               suggestion := .noAdjust } := by
  with_unfolding_all decide

/-- C9: `summarize_errors` is order-insensitive — permuting the vector list
leaves the whole report unchanged, because every statistic is a sum, count or
length over the multiset of vectors. -/
theorem summarize_errors_perm_invariant (errors errors' : List (ℚ × ℚ)) (w h thr : ℚ)
    (hperm : errors.Perm errors') :
    summarize_errors errors w h thr = summarize_errors errors' w h thr := by
  have hme : ∀ f : ℚ × ℚ → ℚ, mean (errors.map f) = mean (errors'.map f) := by
    intro f
    unfold mean
    rw [(hperm.map f).sum_eq, (hperm.map f).length_eq]
  have hqc : ∀ q, quad_count errors q = quad_count errors' q := by
    intro q
    unfold quad_count
    exact hperm.countP_eq _
  have hlen : errors.length = errors'.length := hperm.length_eq
  unfold summarize_errors
  by_cases he : errors' = []
  · have he2 : errors = [] := List.length_eq_zero.mp (by rw [hlen, he]; rfl)
    simp [he, he2]
  · have hne : errors ≠ [] := by
      intro h0
      exact he (List.length_eq_zero.mp (by rw [← hlen, h0]; rfl))
    rw [if_neg hne, if_neg he]
    simp only [hme, hqc, hlen]

theorem summarize_errors_perm_invariant_witness :
    ([((1 : ℚ), (2 : ℚ)), ((3 : ℚ), (4 : ℚ))] : List (ℚ × ℚ)).Perm
      [((3 : ℚ), (4 : ℚ)), ((1 : ℚ), (2 : ℚ))] ∧
    summarize_errors [((1 : ℚ), (2 : ℚ)), ((3 : ℚ), (4 : ℚ))] 512 384 (1 / 4)
      = summarize_errors [((3 : ℚ), (4 : ℚ)), ((1 : ℚ), (2 : ℚ))] 512 384 (1 / 4) :=
  ⟨List.Perm.swap _ _ _,
    summarize_errors_perm_invariant _ _ 512 384 (1 / 4) (List.Perm.swap _ _ _)⟩

/-- C6: for a non-empty vector set the "no adjustment" outcome appears exactly
when both physical-unit mean biases are below the threshold; otherwise the
adjustment block reports, per axis, a corrective shift equal in magnitude and
opposite in sign to the observed mean bias, with neither magnitude re-gated by
the threshold. -/
theorem summarize_errors_suggestion_gate (errors : List (ℚ × ℚ)) (w h thr : ℚ)
    (hne : errors ≠ []) :
    ∃ rep, summarize_errors errors w h thr = some rep ∧
      rep.mean_dx = mean (errors.map Prod.fst) ∧
      rep.mean_dy = mean (errors.map Prod.snd) ∧
      rep.mean_dx_mm = rep.mean_dx / 512 * w ∧
      rep.mean_dy_mm = rep.mean_dy / 384 * h ∧
      (rep.suggestion = .noAdjust ↔ |rep.mean_dx_mm| < thr ∧ |rep.mean_dy_mm| < thr) ∧
      (∀ a, rep.suggestion = .adjust a →
        a.corr_dx_mm = -rep.mean_dx_mm ∧ a.corr_dy_mm = -rep.mean_dy_mm ∧
        a.abs_dx_mm = |rep.mean_dx_mm| ∧ a.abs_dy_mm = |rep.mean_dy_mm|) := by
  unfold summarize_errors
  rw [if_neg hne]
  refine ⟨_, rfl, rfl, rfl, rfl, rfl, ?_, ?_⟩
  · show suggestion_of (mean (errors.map Prod.fst)) (mean (errors.map Prod.snd))
        (mean (errors.map Prod.fst) / 512 * w) (mean (errors.map Prod.snd) / 384 * h) thr
          = .noAdjust ↔
        |mean (errors.map Prod.fst) / 512 * w| < thr ∧
        |mean (errors.map Prod.snd) / 384 * h| < thr
    unfold suggestion_of
    by_cases hg : |mean (errors.map Prod.fst) / 512 * w| < thr ∧
        |mean (errors.map Prod.snd) / 384 * h| < thr
    · rw [if_pos hg]
      exact ⟨fun _ => hg, fun _ => rfl⟩
    · rw [if_neg hg]
      exact ⟨fun hcontra => AdjustOutcome.noConfusion hcontra, fun hg' => absurd hg' hg⟩
  · intro a ha
    have ha' : suggestion_of (mean (errors.map Prod.fst)) (mean (errors.map Prod.snd))
        (mean (errors.map Prod.fst) / 512 * w) (mean (errors.map Prod.snd) / 384 * h) thr
          = .adjust a := ha
    unfold suggestion_of at ha'
    by_cases hg : |mean (errors.map Prod.fst) / 512 * w| < thr ∧
        |mean (errors.map Prod.snd) / 384 * h| < thr
    · rw [if_pos hg] at ha'
      exact AdjustOutcome.noConfusion ha'
    · rw [if_neg hg] at ha'
      have hinj := AdjustOutcome.adjust.inj ha'
      rw [← hinj]
      exact ⟨rfl, rfl, rfl, rfl⟩

theorem summarize_errors_suggestion_gate_witness :
    ([((512 : ℚ), (0 : ℚ))] : List (ℚ × ℚ)) ≠ [] ∧
    (∃ rep, summarize_errors [((512 : ℚ), (0 : ℚ))] 512 384 (1 / 4) = some rep ∧
      rep.mean_dx = mean ([((512 : ℚ), (0 : ℚ))].map Prod.fst) ∧
      rep.mean_dy = mean ([((512 : ℚ), (0 : ℚ))].map Prod.snd) ∧
      rep.mean_dx_mm = rep.mean_dx / 512 * 512 ∧
      rep.mean_dy_mm = rep.mean_dy / 384 * 384 ∧
      (rep.suggestion = .noAdjust ↔ |rep.mean_dx_mm| < 1 / 4 ∧ |rep.mean_dy_mm| < 1 / 4) ∧
      (∀ a, rep.suggestion = .adjust a →
        a.corr_dx_mm = -rep.mean_dx_mm ∧ a.corr_dy_mm = -rep.mean_dy_mm ∧
        a.abs_dx_mm = |rep.mean_dx_mm| ∧ a.abs_dy_mm = |rep.mean_dy_mm|)) :=
  ⟨by decide, summarize_errors_suggestion_gate _ 512 384 (1 / 4) (by decide)⟩

/-- C10: when the adjustment block fires, an exactly-zero axis mean is
labelled on the negative side — `0.00 mm` "left" (and corrective shift
"towards the left") for `mean_dx = 0`, `0.00 mm` "up" for `mean_dy = 0` —
while the quadrant bucketing groups `dx = 0` with the right buckets and
`dy = 0` with the bottom buckets. -/
theorem zero_mean_direction_labels (errors : List (ℚ × ℚ)) (w h thr : ℚ) (rep : BiasReport)
    (hs : summarize_errors errors w h thr = some rep)
    (hgate : ¬ (|rep.mean_dx_mm| < thr ∧ |rep.mean_dy_mm| < thr)) :
    (∃ a, rep.suggestion = .adjust a ∧
      (rep.mean_dx = 0 → a.dir_x = "left" ∧ a.corr_dir_x = "left" ∧
        a.abs_dx_mm = 0 ∧ a.corr_dx_mm = 0) ∧
      (rep.mean_dy = 0 → a.dir_y = "up" ∧ a.corr_dir_y = "up" ∧
        a.abs_dy_mm = 0 ∧ a.corr_dy_mm = 0)) ∧
    rep.quad_tl + rep.quad_bl = errors.countP (fun e => decide (e.1 < 0)) ∧
    rep.quad_tl + rep.quad_tr = errors.countP (fun e => decide (e.2 < 0)) := by
  have hne : errors ≠ [] := by
    intro h0
    rw [h0] at hs
    simp [summarize_errors] at hs
  unfold summarize_errors at hs
  rw [if_neg hne] at hs
  have hrep : rep = _ := (Option.some.inj hs).symm
  subst hrep
  refine ⟨⟨{ dir_x := if mean (errors.map Prod.fst) > 0 then "right" else "left"
             dir_y := if mean (errors.map Prod.snd) > 0 then "down" else "up"
             abs_dx_mm := |mean (errors.map Prod.fst) / 512 * w|
             abs_dy_mm := |mean (errors.map Prod.snd) / 384 * h|
             corr_dx_mm := -(mean (errors.map Prod.fst) / 512 * w)
             corr_dy_mm := -(mean (errors.map Prod.snd) / 384 * h)
             corr_dir_x := if -(mean (errors.map Prod.fst) / 512 * w) > 0 then "right" else "left"
             corr_dir_y := if -(mean (errors.map Prod.snd) / 384 * h) > 0 then "down" else "up" },
      ?_, ?_, ?_⟩, quad_left_split errors, quad_top_split errors⟩
  · show suggestion_of (mean (errors.map Prod.fst)) (mean (errors.map Prod.snd))
        (mean (errors.map Prod.fst) / 512 * w) (mean (errors.map Prod.snd) / 384 * h) thr = _
    unfold suggestion_of
    rw [if_neg (by exact hgate)]
  · intro hmx
    have hmx' : mean (errors.map Prod.fst) = 0 := hmx
    refine ⟨?_, ?_, ?_, ?_⟩ <;> simp [hmx']
  · intro hmy
    have hmy' : mean (errors.map Prod.snd) = 0 := hmy
    refine ⟨?_, ?_, ?_, ?_⟩ <;> simp [hmy']

/-- The report produced on the single vector `(0, 384)` with a 512 × 384 mm
area at threshold 0.25 mm, used to witness the zero-axis labelling. -/
def sampleReport : BiasReport :=
  { total := 1, mean_dx := 0, mean_dy := 384, mean_dx_mm := 0, mean_dy_mm := 384,
    quad_tl := 0, quad_tr := 0, quad_bl := 0, quad_br := 1,
    pct_tl := 0, pct_tr := 0, pct_bl := 0, pct_br := 100,
    suggestion := .adjust
      { dir_x := "left", dir_y := "down", abs_dx_mm := 0, abs_dy_mm := 384,
        corr_dx_mm := 0, corr_dy_mm := -384, corr_dir_x := "left", corr_dir_y := "up" } }

theorem zero_mean_direction_labels_witness :
    summarize_errors [((0 : ℚ), (384 : ℚ))] 512 384 (1 / 4) = some sampleReport ∧
    ¬ (|sampleReport.mean_dx_mm| < 1 / 4 ∧ |sampleReport.mean_dy_mm| < 1 / 4) ∧
    ((∃ a, sampleReport.suggestion = .adjust a ∧
      (sampleReport.mean_dx = 0 → a.dir_x = "left" ∧ a.corr_dir_x = "left" ∧
        a.abs_dx_mm = 0 ∧ a.corr_dx_mm = 0) ∧
      (sampleReport.mean_dy = 0 → a.dir_y = "up" ∧ a.corr_dir_y = "up" ∧
        a.abs_dy_mm = 0 ∧ a.corr_dy_mm = 0)) ∧
     sampleReport.quad_tl + sampleReport.quad_bl
       = [((0 : ℚ), (384 : ℚ))].countP (fun e => decide (e.1 < 0)) ∧
     sampleReport.quad_tl + sampleReport.quad_tr
       = [((0 : ℚ), (384 : ℚ))].countP (fun e => decide (e.2 < 0))) := by
  have h1 : summarize_errors [((0 : ℚ), (384 : ℚ))] 512 384 (1 / 4) = some sampleReport := by
    with_unfolding_all decide
  have h2 : ¬ (|sampleReport.mean_dx_mm| < 1 / 4 ∧ |sampleReport.mean_dy_mm| < 1 / 4) := by
    with_unfolding_all decide
  exact ⟨h1, h2, zero_mean_direction_labels _ _ _ _ _ h1 h2⟩
